import Mathlib

/-!
# Verification of the experiment-panel tree visualizer and process runner

Shallow embedding of `src/components/experiment_panel.py`: the descendant
counter, the lazy tree renderer, the flat small-tree renderer, the node-click
expansion handler, the benchmark process runner's logging, and the
start-experiment field validation.
-/

set_option maxHeartbeats 1000000

namespace ExperimentPanel

/-- Embeds `count_descendants(i, num)`: recursively count the number of
descendant nodes for node `i` in a binary tree represented as an array of
length `num` (children of `i` are `2*i+1` and `2*i+2`). -/
def count_descendants (i num : Nat) : Nat :=
  (if 2 * i + 1 < num then 1 + count_descendants (2 * i + 1) num else 0) +
  (if 2 * i + 2 < num then 1 + count_descendants (2 * i + 2) num else 0)
termination_by num - i
decreasing_by
  · omega
  · omega

/-- `reaches i j` holds when index `j` is reachable from index `i` by repeated
child-index derivation (`j ↦ 2*j+1` or `j ↦ 2*j+2`), i.e. `j` lies in the
subtree rooted at `i` of the infinite binary tree on `Nat`.  Computed by
walking the parent chain of `j`. -/
def reaches (i j : Nat) : Bool :=
  if j = i then true
  else if j = 0 then false
  else reaches i ((j - 1) / 2)
termination_by j
decreasing_by omega

/-- The set of strict descendants of `i` that exist in a tree of `num` nodes:
indices `j` with `i < j < num` reachable from `i` by repeated child-index
derivation. -/
def descSet (i num : Nat) : Finset Nat :=
  (Finset.range num).filter (fun j => i < j ∧ reaches i j = true)

/-- The subtree rooted at `i` restricted to a tree of `num` nodes
(including `i` itself when `i < num`). -/
def subtreeSet (i num : Nat) : Finset Nat :=
  (Finset.range num).filter (fun j => reaches i j = true)

/-- A Cytoscape element emitted by the renderer: either a node
`{'data': {'id': str(i), 'label': label, 'cpu': cpu, 'memory': memory}}`
or an edge `{'data': {'source': str(s), 'target': str(t), 'bandwidth': b}}`.
Integer indices stand for their decimal-string ids. -/
inductive Element where
  | node (id : Nat) (label : String) (cpu : String) (memory : String)
  | edge (source target : Nat) (bandwidth : Nat)
deriving DecidableEq, Repr

/-- Embeds the inner `add_node(i)` of `build_tree_elements(num, expanded)`:
returns the list of elements appended by the call `add_node(i)`, in append
order.  A node that has children and is not expanded gets the
`"Node i [+k]"` label; an expanded node recursively emits its children and
the connecting edges. -/
def add_node (num : Nat) (expanded : List Nat) (i : Nat) : List Element :=
  if i ≥ num then []
  else
    let left := 2 * i + 1
    let right := 2 * i + 2
    let has_children := left < num
    let label :=
      if has_children ∧ i ∉ expanded then
        let descendant_count := count_descendants i num
        s!"Node {i} [+{descendant_count}]"
      else
        s!"Node {i}"
    Element.node i label "2.5 GHz" "8GB" ::
      (if i ∈ expanded then
        (if left < num then
          add_node num expanded left ++ [Element.edge i left 100]
         else []) ++
        (if right < num then
          add_node num expanded right ++ [Element.edge i right 100]
         else [])
       else [])
termination_by num - i
decreasing_by
  · omega
  · omega

/-- Embeds `build_tree_elements(num, expanded)`: the Cytoscape elements for a
binary tree of `num` nodes with lazy expansion, starting from `add_node(0)`. -/
def build_tree_elements (num : Nat) (expanded : List Nat) : List Element :=
  add_node num expanded 0

/-- `true` iff the element list contains a node element with id `i`. -/
def containsNodeId (els : List Element) (i : Nat) : Bool :=
  els.any fun e =>
    match e with
    | Element.node j _ _ _ => j = i
    | Element.edge _ _ _ => false

/-- The ids of the node elements of an element list, in emission order. -/
def nodeIds (els : List Element) : List Nat :=
  els.filterMap fun e =>
    match e with
    | Element.node j _ _ _ => some j
    | Element.edge _ _ _ => none


theorem reaches_self (i : Nat) : reaches i i = true := by
  rw [reaches]; simp

theorem reaches_zero {i : Nat} (h : i ≠ 0) : reaches i 0 = false := by
  rw [reaches]; simp [Ne.symm h]

theorem reaches_step {i j : Nat} (hne : j ≠ i) (h0 : j ≠ 0) :
    reaches i j = reaches i ((j - 1) / 2) := by
  conv_lhs => rw [reaches]
  simp [hne, h0]

theorem reaches_le {i j : Nat} (h : reaches i j = true) : i ≤ j := by
  induction j using Nat.strong_induction_on with
  | _ j ih =>
    by_cases hji : j = i
    · omega
    · by_cases hj0 : j = 0
      · subst hj0
        rw [reaches_zero (fun hi => hji (by omega))] at h
        simp at h
      · rw [reaches_step hji hj0] at h
        have := ih _ (by omega) h
        omega

theorem reaches_trans {a b c : Nat} (hab : reaches a b = true)
    (hbc : reaches b c = true) : reaches a c = true := by
  induction c using Nat.strong_induction_on with
  | _ c ih =>
    by_cases hcb : c = b
    · subst hcb; exact hab
    · by_cases hc0 : c = 0
      · subst hc0
        rw [reaches_zero (fun hb => hcb (by omega))] at hbc
        simp at hbc
      · rw [reaches_step hcb hc0] at hbc
        have h1 := ih _ (by omega) hbc
        by_cases hca : c = a
        · subst hca; exact reaches_self _
        · rw [reaches_step hca hc0]; exact h1

theorem reaches_left (i : Nat) : reaches i (2 * i + 1) = true := by
  rw [reaches_step (by omega) (by omega), show (2 * i + 1 - 1) / 2 = i by omega]
  exact reaches_self i

theorem reaches_right (i : Nat) : reaches i (2 * i + 2) = true := by
  rw [reaches_step (by omega) (by omega), show (2 * i + 2 - 1) / 2 = i by omega]
  exact reaches_self i

theorem reaches_iff_child {i j : Nat} (hij : i < j) :
    reaches i j = true ↔ reaches (2 * i + 1) j = true ∨ reaches (2 * i + 2) j = true := by
  induction j using Nat.strong_induction_on with
  | _ j ih =>
    constructor
    · intro h
      rw [reaches_step (by omega) (by omega)] at h
      have hip : i ≤ (j - 1) / 2 := reaches_le h
      by_cases hpi : (j - 1) / 2 = i
      · have hchild : j = 2 * i + 1 ∨ j = 2 * i + 2 := by omega
        rcases hchild with h1 | h2
        · exact Or.inl (h1 ▸ reaches_self _)
        · exact Or.inr (h2 ▸ reaches_self _)
      · have hlt : i < (j - 1) / 2 := by omega
        rcases (ih _ (by omega) hlt).mp h with h1 | h1
        · left
          have h21 : 2 * i + 1 ≤ (j - 1) / 2 := reaches_le h1
          rw [reaches_step (by omega) (by omega)]
          exact h1
        · right
          have h22 : 2 * i + 2 ≤ (j - 1) / 2 := reaches_le h1
          rw [reaches_step (by omega) (by omega)]
          exact h1
    · rintro (h | h)
      · exact reaches_trans (reaches_left i) h
      · exact reaches_trans (reaches_right i) h

theorem not_reaches_both {i j : Nat} :
    ¬(reaches (2 * i + 1) j = true ∧ reaches (2 * i + 2) j = true) := by
  induction j using Nat.strong_induction_on with
  | _ j ih =>
    rintro ⟨h1, h2⟩
    have hl := reaches_le h1
    have hr := reaches_le h2
    by_cases hj : j = 2 * i + 2
    · subst hj
      rw [reaches_step (by omega) (by omega),
        show (2 * i + 2 - 1) / 2 = i by omega] at h1
      have := reaches_le h1
      omega
    · rw [reaches_step (by omega) (by omega)] at h1
      rw [reaches_step (by omega) (by omega)] at h2
      exact ih _ (by omega) ⟨h1, h2⟩

theorem mem_descSet {i num j : Nat} :
    j ∈ descSet i num ↔ j < num ∧ i < j ∧ reaches i j = true := by
  simp [descSet, Finset.mem_filter, Finset.mem_range]

theorem mem_subtreeSet {i num j : Nat} :
    j ∈ subtreeSet i num ↔ j < num ∧ reaches i j = true := by
  simp [subtreeSet, Finset.mem_filter, Finset.mem_range]

theorem descSet_eq_union (i num : Nat) :
    descSet i num = subtreeSet (2 * i + 1) num ∪ subtreeSet (2 * i + 2) num := by
  ext j
  simp only [mem_descSet, Finset.mem_union, mem_subtreeSet]
  constructor
  · rintro ⟨hj, hij, hr⟩
    rcases (reaches_iff_child hij).mp hr with h | h
    · exact Or.inl ⟨hj, h⟩
    · exact Or.inr ⟨hj, h⟩
  · rintro (⟨hj, h⟩ | ⟨hj, h⟩)
    · have := reaches_le h
      exact ⟨hj, by omega, (reaches_iff_child (by omega)).mpr (Or.inl h)⟩
    · have := reaches_le h
      exact ⟨hj, by omega, (reaches_iff_child (by omega)).mpr (Or.inr h)⟩

theorem subtree_disjoint (i num : Nat) :
    Disjoint (subtreeSet (2 * i + 1) num) (subtreeSet (2 * i + 2) num) := by
  rw [Finset.disjoint_left]
  intro j h1 h2
  rw [mem_subtreeSet] at h1 h2
  exact not_reaches_both ⟨h1.2, h2.2⟩

theorem subtreeSet_empty {i num : Nat} (h : num ≤ i) : subtreeSet i num = ∅ := by
  ext j
  simp only [mem_subtreeSet, Finset.not_mem_empty, iff_false, not_and]
  intro hj hr
  have := reaches_le hr
  omega

theorem subtreeSet_card {i num : Nat} (h : i < num) :
    (subtreeSet i num).card = 1 + (descSet i num).card := by
  have heq : subtreeSet i num = insert i (descSet i num) := by
    ext j
    simp only [mem_subtreeSet, Finset.mem_insert, mem_descSet]
    constructor
    · rintro ⟨hj, hr⟩
      by_cases hji : j = i
      · exact Or.inl hji
      · have := reaches_le hr
        exact Or.inr ⟨hj, by omega, hr⟩
    · rintro (rfl | ⟨hj, hij, hr⟩)
      · exact ⟨h, reaches_self _⟩
      · exact ⟨hj, hr⟩
  rw [heq, Finset.card_insert_of_not_mem]
  · omega
  · rw [mem_descSet]
    rintro ⟨_, hii, _⟩
    omega

theorem count_descendants_eq_card (i num : Nat) :
    count_descendants i num = (descSet i num).card := by
  induction i, num using count_descendants.induct with
  | _ i num ih1 ih2 =>
    rw [count_descendants, descSet_eq_union,
      Finset.card_union_of_disjoint (subtree_disjoint i num)]
    have hL : (if 2 * i + 1 < num then 1 + count_descendants (2 * i + 1) num else 0)
        = (subtreeSet (2 * i + 1) num).card := by
      by_cases hl : 2 * i + 1 < num
      · rw [if_pos hl, subtreeSet_card hl, ih1 hl]
      · rw [if_neg hl, subtreeSet_empty (by omega), Finset.card_empty]
    have hR : (if 2 * i + 2 < num then 1 + count_descendants (2 * i + 2) num else 0)
        = (subtreeSet (2 * i + 2) num).card := by
      by_cases hr : 2 * i + 2 < num
      · rw [if_pos hr, subtreeSet_card hr, ih2 hr]
      · rw [if_neg hr, subtreeSet_empty (by omega), Finset.card_empty]
    rw [hL, hR]



/-- The node-count input as received by a callback: `absent` models a `None`
value, `invalid` models a value on which `int(...)` raises, and `val n` models
a value that converts to the integer `n`. -/
inductive NumInput where
  | absent
  | invalid
  | val (n : Int)
deriving DecidableEq

/-- Embeds `num = int(num_nodes) if num_nodes is not None else 3` under
`try/except` with fallback 3. -/
def parse_num : NumInput → Int
  | NumInput.absent => 3
  | NumInput.invalid => 3
  | NumInput.val n => n

/-- Embeds `update_network_topology(num_nodes, topology_type, expanded)`:
for three or fewer nodes a flat rendering of all nodes and in-range edges,
otherwise the lazy rendering `build_tree_elements`.  `topology_type` is
unused, as in the source. -/
def update_network_topology (num_nodes : NumInput) (topology_type : Option String)
    (expanded : Option (List Nat)) : List Element :=
  let num : Int := parse_num num_nodes
  if num ≤ 3 then
    ((List.range num.toNat).map fun i =>
      Element.node i s!"Node {i}" "2.5 GHz" "8GB") ++
    ((List.range num.toNat).flatMap fun i =>
      (if 2 * i + 1 < num.toNat then [Element.edge i (2 * i + 1) 100] else []) ++
      (if 2 * i + 2 < num.toNat then [Element.edge i (2 * i + 2) 100] else []))
  else
    build_tree_elements num.toNat (expanded.getD [])

/-- Embeds `expand_node(tapData, expanded_data, num_nodes)`.  `none` as result
models `dash.exceptions.PreventUpdate` (the store keeps its previous value);
`tapData` is the id of the tapped node, if any. -/
def expand_node (tapData : Option Nat) (expanded_data : Option (List Nat))
    (num_nodes : NumInput) : Option (List Nat) :=
  match tapData with
  | Option.none => Option.none
  | Option.some node_id =>
    let num := parse_num num_nodes
    if 2 * (node_id : Int) + 1 ≥ num then Option.none
    else
      let e := expanded_data.getD []
      if node_id ∈ e then Option.some e else Option.some (e ++ [node_id])

/-- The expanded-nodes store after a click: `expand_node`'s output, or the
previous store value when the handler raises `PreventUpdate`. -/
def click_result (tapData : Option Nat) (expanded_data : List Nat)
    (num_nodes : NumInput) : List Nat :=
  (expand_node tapData (Option.some expanded_data) num_nodes).getD expanded_data

/-- The observable outcome of a normal benchmark run: the stdout lines read
by the loop, the drained stderr text, and the exit code from `process.wait()`. -/
structure ProcResult where
  stdout_lines : List String
  stderr : String
  returncode : Int
deriving DecidableEq

def startMsg : String := "Starting experiment...\n"

def successMsg : String := "Experiment completed successfully.\n"

/-- The failure status line for a non-zero return code. -/
def failMsg (code : Int) : String :=
  "Experiment failed with return code " ++ toString code ++ ".\n"

/-- The status line appended when an exception is caught. -/
def errorMsg (e : String) : String :=
  "Error running experiment: " ++ e ++ "\n"

/-- Embeds the text `run_benchmark(params)` appends to `terminal_logs`, as a
function of the run outcome: `Except.error e` models an exception raised while
spawning the process, `Except.ok r` a run that read all output normally. -/
def run_benchmark_log : Except String ProcResult → String
  | Except.error e => startMsg ++ errorMsg e
  | Except.ok r =>
      startMsg ++ String.join r.stdout_lines ++
      (if r.stderr = "" then "" else r.stderr) ++
      (if r.returncode = 0 then successMsg else failMsg r.returncode)

/-- A terminal status line: the success line, a non-zero-return-code failure
line, or a caught-exception failure line. -/
def isTerminalLine (s : String) : Prop :=
  s = successMsg ∨ (∃ c, s = failMsg c) ∨ (∃ e, s = errorMsg e)

/-- A value of one of the five config form fields as seen by the start
callback: `none` models a `None` value, `str` a text/dropdown value, `num` a
numeric value. -/
inductive FieldVal where
  | none
  | str (s : String)
  | num (n : Int)
deriving DecidableEq

/-- Python truthiness of a field value, as used by `all([...])`:
`None`, the empty string and `0` are falsy. -/
def truthy : FieldVal → Bool
  | FieldVal.none => false
  | FieldVal.str s => s ≠ ""
  | FieldVal.num n => n ≠ 0

/-- What the start callback does: nothing (`n_clicks` falsy), refuse with a
logged message, or append the separator line and launch a runner thread with
the given five parameters. -/
inductive StartResult where
  | noop
  | refuse (msg : String)
  | launch (data_set query hardware_heterogeneity network_topology num_of_nodes : FieldVal)
deriving DecidableEq

def required_msg : String := "All fields are required to start an experiment.\n"

/-- Embeds `start_experiment(n_clicks, data_set, query, hardware_heterogeneity,
network_topology, num_of_nodes)`. -/
def start_experiment (n_clicks : Nat)
    (data_set query hardware_heterogeneity network_topology num_of_nodes : FieldVal) :
    StartResult :=
  if n_clicks ≠ 0 then
    if !(truthy data_set && truthy query && truthy hardware_heterogeneity &&
         truthy network_topology && truthy num_of_nodes) then
      StartResult.refuse required_msg
    else
      StartResult.launch data_set query hardware_heterogeneity network_topology num_of_nodes
  else StartResult.noop




theorem reaches_antisymm {a b : Nat} (h1 : reaches a b = true)
    (h2 : reaches b a = true) : a = b := by
  have := reaches_le h1
  have := reaches_le h2
  omega

theorem reaches_from_zero (j : Nat) : reaches 0 j = true := by
  induction j using Nat.strong_induction_on with
  | _ j ih =>
    by_cases hj : j = 0
    · subst hj; exact reaches_self 0
    · rw [reaches_step hj hj]
      exact ih _ (by omega)

theorem containsNodeId_nil (j : Nat) : containsNodeId [] j = false := rfl

theorem containsNodeId_cons_node (i : Nat) (label cpu mem : String)
    (rest : List Element) (j : Nat) :
    containsNodeId (Element.node i label cpu mem :: rest) j
      = (decide (i = j) || containsNodeId rest j) := rfl

theorem containsNodeId_cons_edge (s t b : Nat) (rest : List Element) (j : Nat) :
    containsNodeId (Element.edge s t b :: rest) j = containsNodeId rest j := by
  simp [containsNodeId]

theorem containsNodeId_append (l1 l2 : List Element) (j : Nat) :
    containsNodeId (l1 ++ l2) j = (containsNodeId l1 j || containsNodeId l2 j) := by
  simp [containsNodeId, List.any_append]

/-- Every node on the path from `i` (inclusive) down to `j` (exclusive)
belongs to the expanded list. -/
def pathExpanded (expanded : List Nat) (i j : Nat) : Prop :=
  ∀ a, reaches i a = true → reaches a j = true → a ≠ j → a ∈ expanded

theorem add_node_contains (num : Nat) (expanded : List Nat) (i j : Nat) :
    containsNodeId (add_node num expanded i) j = true ↔
      j < num ∧ reaches i j = true ∧ pathExpanded expanded i j := by
  induction i using add_node.induct num expanded with
  | case1 i hi =>
    rw [add_node, if_pos hi]
    simp only [containsNodeId_nil, Bool.false_eq_true, false_iff]
    rintro ⟨hj, hr, -⟩
    have := reaches_le hr
    omega
  | case2 i hi lft rgt ih1 ih2 =>
    rw [add_node, if_neg hi]
    simp only [containsNodeId_cons_node, Bool.or_eq_true, decide_eq_true_eq]
    have hnodei : i < num := by omega
    by_cases hexp : i ∈ expanded
    · rw [if_pos hexp]
      constructor
      · rintro (rfl | hrest)
        · refine ⟨hnodei, reaches_self _, ?_⟩
          intro a hia hai hne
          exact absurd (reaches_antisymm hia hai).symm hne
        · rw [containsNodeId_append, Bool.or_eq_true] at hrest
          have key : ∀ c : Nat, c = 2 * i + 1 ∨ c = 2 * i + 2 →
              (c < num ∧ containsNodeId (add_node num expanded c) j = true) →
              j < num ∧ reaches i j = true ∧ pathExpanded expanded i j := by
            rintro c hc ⟨hcn, hcont⟩
            have hric : reaches i c = true := by
              rcases hc with rfl | rfl
              · exact reaches_left i
              · exact reaches_right i
            have hsub : j < num ∧ reaches c j = true ∧ pathExpanded expanded c j := by
              rcases hc with rfl | rfl
              · exact (ih1 hcn).mp hcont
              · exact (ih2 hcn).mp hcont
            obtain ⟨hjn, hcj, hpath⟩ := hsub
            refine ⟨hjn, reaches_trans hric hcj, ?_⟩
            intro a hia haj hne
            by_cases hai : a = i
            · exact hai ▸ hexp
            · have hia' : i < a := by
                have := reaches_le hia; omega
              rcases (reaches_iff_child hia').mp hia with h1 | h1
              · rcases hc with rfl | rfl
                · exact hpath a h1 haj hne
                · exact absurd ⟨reaches_trans h1 haj, hcj⟩ not_reaches_both
              · rcases hc with rfl | rfl
                · exact absurd ⟨hcj, reaches_trans h1 haj⟩ not_reaches_both
                · exact hpath a h1 haj hne
          rcases hrest with hA | hB
          · by_cases hl : 2 * i + 1 < num
            · rw [if_pos hl, containsNodeId_append, Bool.or_eq_true] at hA
              rcases hA with hA | hA
              · exact key (2 * i + 1) (Or.inl rfl) ⟨hl, hA⟩
              · rw [containsNodeId_cons_edge, containsNodeId_nil] at hA
                cases hA
            · rw [if_neg hl, containsNodeId_nil] at hA
              cases hA
          · by_cases hr : 2 * i + 2 < num
            · rw [if_pos hr, containsNodeId_append, Bool.or_eq_true] at hB
              rcases hB with hB | hB
              · exact key (2 * i + 2) (Or.inr rfl) ⟨hr, hB⟩
              · rw [containsNodeId_cons_edge, containsNodeId_nil] at hB
                cases hB
            · rw [if_neg hr, containsNodeId_nil] at hB
              cases hB
      · rintro ⟨hjn, hij, hpath⟩
        by_cases hji : i = j
        · exact Or.inl hji
        · right
          have hij' : i < j := by
            have := reaches_le hij; omega
          rw [containsNodeId_append, Bool.or_eq_true]
          rcases (reaches_iff_child hij').mp hij with h1 | h1
          · left
            have hcn : 2 * i + 1 < num := by
              have := reaches_le h1; omega
            rw [if_pos hcn, containsNodeId_append, Bool.or_eq_true]
            left
            refine (ih1 hcn).mpr ⟨hjn, h1, ?_⟩
            intro a hca haj hne
            exact hpath a (reaches_trans (reaches_left i) hca) haj hne
          · right
            have hcn : 2 * i + 2 < num := by
              have := reaches_le h1; omega
            rw [if_pos hcn, containsNodeId_append, Bool.or_eq_true]
            left
            refine (ih2 hcn).mpr ⟨hjn, h1, ?_⟩
            intro a hca haj hne
            exact hpath a (reaches_trans (reaches_right i) hca) haj hne
    · rw [if_neg hexp]
      simp only [containsNodeId_nil, Bool.false_eq_true, or_false]
      constructor
      · rintro rfl
        refine ⟨hnodei, reaches_self _, ?_⟩
        intro a hia hai hne
        exact absurd (reaches_antisymm hia hai).symm hne
      · rintro ⟨hjn, hij, hpath⟩
        by_cases hji : i = j
        · exact hji
        · exact absurd (hpath i (reaches_self i) hij hji) hexp

theorem build_tree_contains (num : Nat) (expanded : List Nat) (j : Nat) :
    containsNodeId (build_tree_elements num expanded) j = true ↔
      j < num ∧ ∀ a, reaches a j = true → a ≠ j → a ∈ expanded := by
  rw [build_tree_elements, add_node_contains]
  constructor
  · rintro ⟨hjn, -, hpath⟩
    exact ⟨hjn, fun a haj hne => hpath a (reaches_from_zero a) haj hne⟩
  · rintro ⟨hjn, hanc⟩
    exact ⟨hjn, reaches_from_zero j, fun a _ haj hne => hanc a haj hne⟩



example : build_tree_elements 7 [] = [Element.node 0 "Node 0 [+6]" "2.5 GHz" "8GB"] := by
  simp [build_tree_elements, add_node, count_descendants]
  rfl

example : build_tree_elements 7 [0] =
    [Element.node 0 "Node 0" "2.5 GHz" "8GB",
     Element.node 1 "Node 1 [+2]" "2.5 GHz" "8GB",
     Element.edge 0 1 100,
     Element.node 2 "Node 2 [+2]" "2.5 GHz" "8GB",
     Element.edge 0 2 100] := by
  simp [build_tree_elements, add_node, count_descendants]
  and_intros <;> rfl

example : (1 : Nat) < 7 ∧ containsNodeId (build_tree_elements 7 []) 1 = false := by
  refine ⟨by norm_num, ?_⟩
  simp [build_tree_elements, add_node, containsNodeId]



theorem failMsg_ne_successMsg (c : Int) : failMsg c ≠ successMsg := by
  intro h
  have hd : (failMsg c).data.getD 11 ' ' = successMsg.data.getD 11 ' ' := by rw [h]
  rw [failMsg, String.append_assoc, String.data_append] at hd
  rw [List.getD_append _ _ _ _ (by decide)] at hd
  revert hd
  decide

theorem errorMsg_ne_successMsg (e : String) : errorMsg e ≠ successMsg := by
  intro h
  have hd : (errorMsg e).data.getD 1 ' ' = successMsg.data.getD 1 ' ' := by rw [h]
  rw [errorMsg, String.append_assoc, String.data_append] at hd
  rw [List.getD_append _ _ _ _ (by decide)] at hd
  revert hd
  decide

theorem run_benchmark_log_spec (outcome : Except String ProcResult) :
    ∃ term : String,
      isTerminalLine term ∧
      run_benchmark_log outcome =
        startMsg ++
          (match outcome with
           | Except.ok r =>
              String.join r.stdout_lines ++ (if r.stderr = "" then "" else r.stderr)
           | Except.error _ => "") ++ term ∧
      (term = successMsg ↔ ∃ r, outcome = Except.ok r ∧ r.returncode = 0) := by
  cases outcome with
  | error e =>
    refine ⟨errorMsg e, Or.inr (Or.inr ⟨e, rfl⟩), ?_, ?_⟩
    · simp [run_benchmark_log]
    · constructor
      · intro h
        exact absurd h (errorMsg_ne_successMsg e)
      · rintro ⟨r, hr, -⟩
        cases hr
  | ok r =>
    by_cases hc : r.returncode = 0
    · refine ⟨successMsg, Or.inl rfl, ?_, ?_⟩
      · simp [run_benchmark_log, hc, String.append_assoc]
      · simp [hc]
    · refine ⟨failMsg r.returncode, Or.inr (Or.inl ⟨r.returncode, rfl⟩), ?_, ?_⟩
      · simp [run_benchmark_log, hc, String.append_assoc]
      · constructor
        · intro h
          exact absurd h (failMsg_ne_successMsg r.returncode)
        · rintro ⟨r', hr', hc'⟩
          cases hr'
          exact absurd hc' hc



/-- An element is a node, or an edge from a node to one of its two arithmetic
children with both endpoints in range. -/
def edgeWellFormed (num : Nat) : Element → Prop
  | Element.node _ _ _ _ => True
  | Element.edge s t _ => (t = 2 * s + 1 ∨ t = 2 * s + 2) ∧ s < num ∧ t < num

theorem add_node_edges (num : Nat) (expanded : List Nat) (i : Nat) :
    ∀ e ∈ add_node num expanded i, edgeWellFormed num e := by
  induction i using add_node.induct num expanded with
  | case1 i hi =>
    rw [add_node, if_pos hi]
    intro e he
    cases he
  | case2 i hi lft rgt ih1 ih2 =>
    rw [add_node, if_neg hi]
    intro e he
    rcases List.mem_cons.mp he with rfl | hrest
    · trivial
    · by_cases hexp : i ∈ expanded
      · rw [if_pos hexp] at hrest
        rcases List.mem_append.mp hrest with hA | hA
        · by_cases hl : 2 * i + 1 < num
          · rw [if_pos hl] at hA
            rcases List.mem_append.mp hA with h1 | h1
            · exact ih1 hl e h1
            · rcases List.mem_singleton.mp h1 with rfl
              exact ⟨Or.inl rfl, by omega, hl⟩
          · rw [if_neg hl] at hA
            cases hA
        · by_cases hr : 2 * i + 2 < num
          · rw [if_pos hr] at hA
            rcases List.mem_append.mp hA with h1 | h1
            · exact ih2 hr e h1
            · rcases List.mem_singleton.mp h1 with rfl
              exact ⟨Or.inr rfl, by omega, hr⟩
          · rw [if_neg hr] at hA
            cases hA
      · rw [if_neg hexp] at hrest
        cases hrest

/-- The flat rendering used for `num ≤ 3`, written out. -/
theorem update_flat (nn : NumInput) (tt : Option String) (e : Option (List Nat))
    (h : parse_num nn ≤ 3) :
    update_network_topology nn tt e =
      ((List.range (parse_num nn).toNat).map fun i =>
        Element.node i s!"Node {i}" "2.5 GHz" "8GB") ++
      ((List.range (parse_num nn).toNat).flatMap fun i =>
        (if 2 * i + 1 < (parse_num nn).toNat then [Element.edge i (2 * i + 1) 100] else []) ++
        (if 2 * i + 2 < (parse_num nn).toNat then [Element.edge i (2 * i + 2) 100] else [])) := by
  simp [update_network_topology, h]

theorem update_lazy (nn : NumInput) (tt : Option String) (e : Option (List Nat))
    (h : ¬ parse_num nn ≤ 3) :
    update_network_topology nn tt e =
      build_tree_elements (parse_num nn).toNat (e.getD []) := by
  simp [update_network_topology, h]

theorem nodeIds_append (l1 l2 : List Element) :
    nodeIds (l1 ++ l2) = nodeIds l1 ++ nodeIds l2 := by
  simp [nodeIds, List.filterMap_append]

theorem update_flat_nodeIds (nn : NumInput) (tt : Option String) (e : Option (List Nat))
    (h : parse_num nn ≤ 3) :
    nodeIds (update_network_topology nn tt e) = List.range (parse_num nn).toNat := by
  rw [update_flat nn tt e h, nodeIds_append]
  have h1 : nodeIds ((List.range (parse_num nn).toNat).map fun i =>
      Element.node i s!"Node {i}" "2.5 GHz" "8GB") = List.range (parse_num nn).toNat := by
    simp [nodeIds, List.filterMap_map]
    exact List.filterMap_some _
  have h2 : nodeIds ((List.range (parse_num nn).toNat).flatMap fun i =>
      (if 2 * i + 1 < (parse_num nn).toNat then [Element.edge i (2 * i + 1) 100] else []) ++
      (if 2 * i + 2 < (parse_num nn).toNat then [Element.edge i (2 * i + 2) 100] else [])) = [] := by
    rw [nodeIds, List.filterMap_eq_nil_iff]
    intro e he
    rcases List.mem_flatMap.mp he with ⟨i, -, hmem⟩
    rcases List.mem_append.mp hmem with h1 | h1
    · split at h1
      · rcases List.mem_singleton.mp h1 with rfl
        rfl
      · cases h1
    · split at h1
      · rcases List.mem_singleton.mp h1 with rfl
        rfl
      · cases h1
  rw [h1, h2, List.append_nil]



theorem interp_label (j : Nat) : s!"Node {j}" = "Node " ++ toString j := by
  show toString "Node " ++ toString j ++ toString "" = "Node " ++ toString j
  rw [show (toString "Node ") = "Node " from rfl, show (toString "") = "" from rfl,
    String.append_empty]

theorem update_flat_labels (nn : NumInput) (tt : Option String) (e : Option (List Nat))
    (h : parse_num nn ≤ 3) (i : Nat) (lbl c m : String)
    (hm : Element.node i lbl c m ∈ update_network_topology nn tt e) :
    lbl = "Node " ++ toString i := by
  rw [update_flat nn tt e h] at hm
  rcases List.mem_append.mp hm with h1 | h1
  · rcases List.mem_map.mp h1 with ⟨j, -, heq⟩
    injection heq with hj hl
    subst hj
    exact hl.symm.trans (interp_label _)
  · exfalso
    rcases List.mem_flatMap.mp h1 with ⟨j, -, hmem⟩
    rcases List.mem_append.mp hmem with h2 | h2
    · split at h2
      · rcases List.mem_singleton.mp h2 with h3
        cases h3
      · cases h2
    · split at h2
      · rcases List.mem_singleton.mp h2 with h3
        cases h3
      · cases h2

theorem update_flat_edges (nn : NumInput) (tt : Option String) (e : Option (List Nat))
    (h : parse_num nn ≤ 3) (s t b : Nat) :
    Element.edge s t b ∈ update_network_topology nn tt e ↔
      (t = 2 * s + 1 ∨ t = 2 * s + 2) ∧ t < (parse_num nn).toNat ∧ b = 100 := by
  rw [update_flat nn tt e h, List.mem_append]
  constructor
  · rintro (hm | hm)
    · exfalso
      rcases List.mem_map.mp hm with ⟨i, -, heq⟩
      cases heq
    · rcases List.mem_flatMap.mp hm with ⟨i, -, hmem⟩
      rcases List.mem_append.mp hmem with h1 | h1
      · by_cases hc : 2 * i + 1 < (parse_num nn).toNat
        · rw [if_pos hc] at h1
          rcases List.mem_singleton.mp h1 with heq
          injection heq with h2 h3 h4
          subst h2; subst h3; subst h4
          exact ⟨Or.inl rfl, hc, rfl⟩
        · rw [if_neg hc] at h1
          cases h1
      · by_cases hc : 2 * i + 2 < (parse_num nn).toNat
        · rw [if_pos hc] at h1
          rcases List.mem_singleton.mp h1 with heq
          injection heq with h2 h3 h4
          subst h2; subst h3; subst h4
          exact ⟨Or.inr rfl, hc, rfl⟩
        · rw [if_neg hc] at h1
          cases h1
  · rintro ⟨ht, htn, rfl⟩
    right
    apply List.mem_flatMap.mpr
    refine ⟨s, List.mem_range.mpr (by omega), List.mem_append.mpr ?_⟩
    rcases ht with rfl | rfl
    · left
      rw [if_pos htn]
      exact List.mem_singleton.mpr rfl
    · right
      rw [if_pos htn]
      exact List.mem_singleton.mpr rfl

theorem update_flat_indep (nn : NumInput) (tt : Option String)
    (e e' : Option (List Nat)) (h : parse_num nn ≤ 3) :
    update_network_topology nn tt e = update_network_topology nn tt e' := by
  rw [update_flat nn tt e h, update_flat nn tt e' h]



/-- C1: for every node index `i` and node count `num` with `i < num`,
`count_descendants i num` equals the number of indices `j > i` that are
reachable from `i` by repeated child-index derivation and are `< num`,
i.e. the size of the subtree rooted at `i` excluding `i` itself. -/
theorem count_descendants_correct (i num : Nat) (h : i < num) :
    count_descendants i num = (descSet i num).card :=
  count_descendants_eq_card i num

theorem count_descendants_correct_witness :
    0 < 7 ∧ count_descendants 0 7 = (descSet 0 7).card :=
  ⟨by norm_num, count_descendants_correct 0 7 (by norm_num)⟩

/-- C2: a click on node `id` never removes elements from the expanded set;
clicking an already-expanded node or a leaf (`2*id+1 ≥ num`) leaves the set
unchanged; otherwise exactly `id` is appended. -/
theorem expand_node_click_spec (id : Nat) (E : List Nat) (nn : NumInput) :
    (∀ x ∈ E, x ∈ click_result (Option.some id) E nn) ∧
    (id ∈ E → click_result (Option.some id) E nn = E) ∧
    (2 * (id : Int) + 1 ≥ parse_num nn → click_result (Option.some id) E nn = E) ∧
    (id ∉ E → 2 * (id : Int) + 1 < parse_num nn →
      click_result (Option.some id) E nn = E ++ [id]) := by
  refine ⟨?_, ?_, ?_, ?_⟩
  · intro x hx
    by_cases hleaf : 2 * (id : Int) + 1 ≥ parse_num nn
    · simpa [click_result, expand_node, hleaf] using hx
    · by_cases hmem : id ∈ E
      · simpa [click_result, expand_node, hleaf, hmem] using hx
      · simp [click_result, expand_node, hleaf, hmem]
        exact Or.inl hx
  · intro hmem
    by_cases hleaf : 2 * (id : Int) + 1 ≥ parse_num nn
    · simp [click_result, expand_node, hleaf]
    · simp [click_result, expand_node, hleaf, hmem]
  · intro hleaf
    simp [click_result, expand_node, hleaf]
  · intro hmem hleaf
    simp [click_result, expand_node, hmem,
      show ¬2 * (id : Int) + 1 ≥ parse_num nn from by omega]

theorem expand_node_click_spec_witness :
    (0 : Nat) ∉ ([] : List Nat) ∧ 2 * ((0 : Nat) : Int) + 1 < parse_num (NumInput.val 7) ∧
    click_result (Option.some 0) [] (NumInput.val 7) = [] ++ [0] :=
  ⟨by simp, by decide,
    (expand_node_click_spec 0 [] (NumInput.val 7)).2.2.2 (by simp) (by decide)⟩

/-- C3: the text `run_benchmark` appends to the log buffer is the start
marker, followed by every stdout line in order, the drained stderr text, and
exactly one terminal status line, which is the success line if and only if
the process exited with code 0; any exception or non-zero code yields a
failure line. -/
theorem run_benchmark_log_shape (outcome : Except String ProcResult) :
    ∃ term : String,
      isTerminalLine term ∧
      run_benchmark_log outcome =
        startMsg ++
          (match outcome with
           | Except.ok r =>
              String.join r.stdout_lines ++ (if r.stderr = "" then "" else r.stderr)
           | Except.error _ => "") ++ term ∧
      (term = successMsg ↔ ∃ r, outcome = Except.ok r ∧ r.returncode = 0) :=
  run_benchmark_log_spec outcome

/-- C4 counterexample: with `nodeCount = 7` and nothing expanded, the lazy
render does not contain a node with id 1 even though `1 < 7`; so "node `i`
exists iff `i < num`" fails as stated. -/
theorem build_tree_missing_node :
    (1 : Nat) < 7 ∧ containsNodeId (build_tree_elements 7 []) 1 = false := by
  refine ⟨by norm_num, ?_⟩
  simp [build_tree_elements, add_node, containsNodeId]

/-- C4 (amended): the rendered view contains a node with id `i` if and only
if `i < num` and every proper ancestor of `i` is in the expanded set; in
particular a rendered id is always `< num`, and the converse direction of the
original claim holds only when all of `i`'s proper ancestors are expanded. -/
theorem build_tree_contains_iff (num : Nat) (expanded : List Nat) (i : Nat) :
    containsNodeId (build_tree_elements num expanded) i = true ↔
      i < num ∧ ∀ a, reaches a i = true → a ≠ i → a ∈ expanded :=
  build_tree_contains num expanded i

/-- C5: with `nodeCount = 7` and nothing expanded the render emits exactly
one node labeled `"Node 0 [+6]"`; with `expanded = {0}` it emits exactly
nodes 0, 1, 2 labeled `"Node 0"`, `"Node 1 [+2]"`, `"Node 2 [+2]"` (plus the
two connecting edges). -/
theorem render_examples :
    build_tree_elements 7 [] = [Element.node 0 "Node 0 [+6]" "2.5 GHz" "8GB"] ∧
    build_tree_elements 7 [0] =
      [Element.node 0 "Node 0" "2.5 GHz" "8GB",
       Element.node 1 "Node 1 [+2]" "2.5 GHz" "8GB",
       Element.edge 0 1 100,
       Element.node 2 "Node 2 [+2]" "2.5 GHz" "8GB",
       Element.edge 0 2 100] := by
  constructor
  · simp [build_tree_elements, add_node, count_descendants]
    rfl
  · simp [build_tree_elements, add_node, count_descendants]
    and_intros <;> rfl

/-- C6: for a node count `≤ 3` the render bypasses lazy expansion: it emits
exactly the nodes `0 .. num-1`, each labeled `"Node i"` with no `[+k]`
suffix, together with every in-range parent-child edge, and the result does
not depend on the expanded set. -/
theorem small_tree_flat_render (nn : NumInput) (tt : Option String)
    (e : Option (List Nat)) (h0 : 0 ≤ parse_num nn) (h3 : parse_num nn ≤ 3) :
    nodeIds (update_network_topology nn tt e) = List.range (parse_num nn).toNat ∧
    (∀ i lbl c m, Element.node i lbl c m ∈ update_network_topology nn tt e →
      lbl = "Node " ++ toString i) ∧
    (∀ s t b, Element.edge s t b ∈ update_network_topology nn tt e ↔
      (t = 2 * s + 1 ∨ t = 2 * s + 2) ∧ t < (parse_num nn).toNat ∧ b = 100) ∧
    (∀ e', update_network_topology nn tt e = update_network_topology nn tt e') :=
  ⟨update_flat_nodeIds nn tt e h3,
   fun i lbl c m => update_flat_labels nn tt e h3 i lbl c m,
   fun s t b => update_flat_edges nn tt e h3 s t b,
   fun e' => update_flat_indep nn tt e e' h3⟩

theorem small_tree_flat_render_witness :
    0 ≤ parse_num (NumInput.val 3) ∧ parse_num (NumInput.val 3) ≤ 3 ∧
    nodeIds (update_network_topology (NumInput.val 3) Option.none (Option.some [0]))
      = List.range 3 :=
  ⟨by decide, by decide,
   (small_tree_flat_render (NumInput.val 3) Option.none (Option.some [0])
     (by decide) (by decide)).1⟩

/-- C7: every edge emitted by the render, in the flat path as well as the
lazy path, connects a node `s` to its arithmetic child `2s+1` or `2s+2` with
both endpoints `< num`; and when `num ≤ 3` the render emits exactly `num`
nodes. -/
theorem render_edges_sound (nn : NumInput) (tt : Option String)
    (e : Option (List Nat)) (h0 : 0 ≤ parse_num nn) :
    (∀ s t b, Element.edge s t b ∈ update_network_topology nn tt e →
      (t = 2 * s + 1 ∨ t = 2 * s + 2) ∧
        s < (parse_num nn).toNat ∧ t < (parse_num nn).toNat) ∧
    (parse_num nn ≤ 3 →
      (nodeIds (update_network_topology nn tt e)).length = (parse_num nn).toNat) := by
  constructor
  · intro s t b hm
    by_cases h3 : parse_num nn ≤ 3
    · rcases (update_flat_edges nn tt e h3 s t b).mp hm with ⟨ht, htn, -⟩
      exact ⟨ht, by omega, htn⟩
    · rw [update_lazy nn tt e h3] at hm
      exact add_node_edges _ _ 0 _ hm
  · intro h3
    rw [update_flat_nodeIds nn tt e h3, List.length_range]

theorem render_edges_sound_witness :
    0 ≤ parse_num (NumInput.val 2) ∧ parse_num (NumInput.val 2) ≤ 3 ∧
    (nodeIds (update_network_topology (NumInput.val 2) Option.none Option.none)).length
      = 2 :=
  ⟨by decide, by decide,
   (render_edges_sound (NumInput.val 2) Option.none Option.none (by decide)).2
     (by decide)⟩

/-- C8: the render's node-count input is totalized: a parsed node count `≤ 0`
yields an empty element list, and an absent or invalid (non-numeric)
node-count input parses to 3. -/
theorem update_input_totalized :
    (∀ nn tt e, parse_num nn ≤ 0 → update_network_topology nn tt e = []) ∧
    parse_num NumInput.absent = 3 ∧ parse_num NumInput.invalid = 3 := by
  refine ⟨?_, rfl, rfl⟩
  intro nn tt e h
  rw [update_flat nn tt e (by omega)]
  rw [show (parse_num nn).toNat = 0 by omega]
  simp

theorem update_input_totalized_witness :
    parse_num (NumInput.val (-2)) ≤ 0 ∧
    update_network_topology (NumInput.val (-2)) Option.none Option.none = [] :=
  ⟨by decide, update_input_totalized.1 _ _ _ (by decide)⟩

/-- C9: if any of the five config fields is missing (`None`) and the start
button was clicked, the start handler refuses with the single explanatory
message and does not launch a runner. -/
theorem start_missing_field_refuses (nc : Nat) (ds q hh nt nn : FieldVal)
    (hc : nc ≠ 0)
    (h : ds = FieldVal.none ∨ q = FieldVal.none ∨ hh = FieldVal.none ∨
         nt = FieldVal.none ∨ nn = FieldVal.none) :
    start_experiment nc ds q hh nt nn = StartResult.refuse required_msg := by
  rcases h with rfl | rfl | rfl | rfl | rfl <;>
    simp [start_experiment, hc, truthy]

theorem start_missing_field_refuses_witness :
    (1 : Nat) ≠ 0 ∧
    start_experiment 1 FieldVal.none (FieldVal.str "q") (FieldVal.str "h")
      (FieldVal.str "t") (FieldVal.num 5) = StartResult.refuse required_msg :=
  ⟨by decide,
   start_missing_field_refuses 1 FieldVal.none (FieldVal.str "q") (FieldVal.str "h")
     (FieldVal.str "t") (FieldVal.num 5) (by decide) (Or.inl rfl)⟩

/-- C10: field presence is judged by Python truthiness, so a
number-of-nodes value of 0, and likewise an empty-string text field, is
rejected as missing: the handler refuses with the required-fields message
and no process is spawned. -/
theorem start_truthiness_rejects_zero (nc : Nat) (ds q hh nt : FieldVal)
    (hc : nc ≠ 0) :
    start_experiment nc ds q hh nt (FieldVal.num 0) = StartResult.refuse required_msg ∧
    (∀ nn, start_experiment nc (FieldVal.str "") q hh nt nn
      = StartResult.refuse required_msg) := by
  constructor
  · simp [start_experiment, hc, truthy]
  · intro nn
    simp [start_experiment, hc, truthy]

theorem start_truthiness_rejects_zero_witness :
    (1 : Nat) ≠ 0 ∧
    start_experiment 1 (FieldVal.str "d") (FieldVal.str "q") (FieldVal.str "h")
      (FieldVal.str "t") (FieldVal.num 0) = StartResult.refuse required_msg :=
  ⟨by decide,
   (start_truthiness_rejects_zero 1 (FieldVal.str "d") (FieldVal.str "q")
     (FieldVal.str "h") (FieldVal.str "t") (by decide)).1⟩


end ExperimentPanel
